import Mathlib

/-!
Shallow embedding of the indexing and query engine of `kiro-total-recall`
(files `src/kiro_total_recall/indexer.py`, `query.py`, `config.py`,
`models.py`), together with theorems settling the specification claims.

Modelling conventions:
* Python `datetime` values are represented by their `.timestamp()` value,
  modelled as `ℤ` (only ordering and comparisons matter to the code paths
  verified here).
* Python `float` similarity scores and thresholds are modelled as `ℚ`
  (only arithmetic comparisons matter; no rounding-sensitive claim is
  settled on this model).
* `np.argsort` is modelled as the canonical deterministic ascending
  argsort: indices sorted by value with index order breaking ties (the
  unique permutation that any stable ascending sort produces).
* MD5 content hashes are modelled by the hashed text itself (hashing is
  assumed collision-free, which is the code's own working assumption).
* Python's `x or default` idiom on `int | None` / `float | None`
  arguments is modelled explicitly: `None` and falsy `0` / `0.0` are both
  replaced by the default.
-/

namespace KiroTotalRecall

/-- `models.py` `Source`: conversation source enum (`cli` / `ide`). -/
inductive Source where
  | cli
  | ide
deriving DecidableEq, Repr

/-- `models.py` `IndexedMessage`: a message indexed for search.
`timestamp` is the message datetime's `.timestamp()` value. -/
structure IndexedMessage where
  uuid : String
  session_id : String
  workspace : String
  timestamp : ℤ
  role : String
  searchable_text : String
  message_index : ℤ
  source : Source
deriving DecidableEq, Repr

instance : Inhabited IndexedMessage :=
  ⟨⟨"", "", "", 0, "", "", 0, Source.cli⟩⟩

/-- `models.py` `SessionInfo`: metadata about a conversation session.
`created` / `modified` are optional datetimes (as timestamps). -/
structure SessionInfo where
  session_id : String
  workspace : String
  message_count : ℤ
  created : Option ℤ
  modified : Option ℤ
  source : Source
deriving DecidableEq, Repr

/-- `datetime.min.timestamp()` stand-in: a constant below every timestamp
occurring in real data; only its use as a fallback sort key matters. -/
def datetimeMin : ℤ := -62135596800

/-- `models.py` `SessionInfo.timestamp_fallback`:
`self.modified or self.created or datetime.min` (datetimes are always
truthy in Python, so this picks the first non-`None` value). -/
def SessionInfo.timestamp_fallback (s : SessionInfo) : ℤ :=
  match s.modified with
  | some m => m
  | none =>
    match s.created with
    | some c => c
    | none => datetimeMin

/-- `config.py` `BYTES_PER_MESSAGE = 2600`. -/
def BYTES_PER_MESSAGE : ℤ := 2600

/-- `config.py` `SearchConfig.default_threshold = 0.2`. -/
def default_threshold : ℚ := 1 / 5

/-- `config.py` `SearchConfig.default_max_results = 10`. -/
def default_max_results : ℕ := 10

/-- `config.py` `SearchConfig.default_context_window = 3`. -/
def default_context_window : ℤ := 3

/-- Python `x or d` for an `int | None` argument `x`: `None` and the
falsy value `0` are both replaced by the default `d`
(`query.py` line 100 / 102). -/
def pyOrInt (x : Option ℤ) (d : ℤ) : ℤ :=
  match x with
  | none => d
  | some v => if v = 0 then d else v

/-- Python `x or d` for an `int | None` argument used as a count
(`query.py` line 102, `max_results`). -/
def pyOrNat (x : Option ℕ) (d : ℕ) : ℕ :=
  match x with
  | none => d
  | some v => if v = 0 then d else v

/-- Python `x or d` for a `float | None` argument `x`: `None` and the
falsy value `0.0` are both replaced by the default `d`
(`query.py` line 101, `threshold`). -/
def pyOrRat (x : Option ℚ) (d : ℚ) : ℚ :=
  match x with
  | none => d
  | some v => if v = 0 then d else v

/-- `query.py` `_generate_hint`: pagination hint formatting. -/
def generateHint (total offset count maxResults : ℕ) (hasMore : Bool) :
    String :=
  if total = 0 then "No matches found. Try different search terms."
  else
    let start := offset + 1
    let stop := offset + count
    if hasMore then
      s!"Showing {start}-{stop} of {total}. Use offset: {offset + maxResults} for more."
    else if start = 1 then
      s!"Showing all {total} matches."
    else
      s!"Showing {start}-{stop} of {total} (final page)."

/-- Ordering relation underlying `np.argsort` over a value function `f`:
index `i` precedes index `j` when its value is smaller, with the index
order breaking ties (the canonical stable ascending argsort). -/
def argsortRel {β : Type} [LinearOrder β] (f : ℕ → β) (i j : ℕ) : Prop :=
  f i < f j ∨ (f i = f j ∧ i ≤ j)

instance {β : Type} [LinearOrder β] (f : ℕ → β) :
    DecidableRel (argsortRel f) := fun i j =>
  inferInstanceAs (Decidable (f i < f j ∨ (f i = f j ∧ i ≤ j)))

/-- `np.argsort(values)` where `values.length = n`, modelled as the
unique ascending-stable permutation of `[0, …, n-1]`. -/
def argsort {β : Type} [LinearOrder β] (f : ℕ → β) (n : ℕ) : List ℕ :=
  List.insertionSort (argsortRel f) (List.range n)

/-- `indexer.py` `_build_metadata_indices`:
`self._timestamp_order = np.argsort(timestamps)` over the messages'
timestamps (`ts` is the list of message timestamps in index order). -/
def timestampOrder (ts : List ℤ) : List ℕ :=
  argsort (fun i => ts.getD i 0) ts.length

/-- `indexer.py` `_build_metadata_indices`:
`self._sorted_timestamps = timestamps[self._timestamp_order]`. -/
def sortedTimestamps (ts : List ℤ) : List ℤ :=
  (timestampOrder ts).map (fun i => ts.getD i 0)

/-- `np.searchsorted(sorted, x, side="left")` on a sorted array: the
left insertion point, i.e. the number of elements strictly below `x`. -/
def searchsortedLeft (l : List ℤ) (x : ℤ) : ℕ :=
  l.countP (fun v => decide (v < x))

/-- `indexer.py` `search` lines 296–298: the slice start index;
`after = None` stands for `after_ts = -inf`, whose left insertion
point is `0`. -/
def lowerIdx (ts : List ℤ) (after : Option ℤ) : ℕ :=
  match after with
  | none => 0
  | some a => searchsortedLeft (sortedTimestamps ts) a

/-- `indexer.py` `search` lines 297–299: the slice end index;
`before = None` stands for `before_ts = +inf`, whose left insertion
point is the array length. -/
def upperIdx (ts : List ℤ) (before : Option ℤ) : ℕ :=
  match before with
  | none => (sortedTimestamps ts).length
  | some b => searchsortedLeft (sortedTimestamps ts) b

/-- `indexer.py` `search` lines 295–302: if either date bound is given,
candidates are the `[start_idx:end_idx]` slice of `_timestamp_order`;
otherwise all message indices (`np.arange(len(self._messages))`). -/
def candidateIndices (ts : List ℤ) (after before : Option ℤ) : List ℕ :=
  match after, before with
  | none, none => List.range ts.length
  | _, _ =>
    ((timestampOrder ts).drop (lowerIdx ts after)).take
      (upperIdx ts before - lowerIdx ts after)

/-- The inclusive lower date bound as a Boolean test on a timestamp
(`after = None` is unconstrained). -/
def lbB (after : Option ℤ) (v : ℤ) : Bool :=
  match after with
  | none => true
  | some a => decide (a ≤ v)

/-- The exclusive upper date bound as a Boolean test on a timestamp
(`before = None` is unconstrained). -/
def ubB (before : Option ℤ) (v : ℤ) : Bool :=
  match before with
  | none => true
  | some b => decide (v < b)

/-- Python `p.startswith(s)`-style test, modelled character-by-character
(equivalent to `String.isPrefixOf`). -/
def strStartsWith (p s : String) : Bool :=
  p.data.isPrefixOf s.data

/-- `indexer.py` `search` line 328:
`if workspace and not msg.workspace.startswith(workspace): continue`.
The empty string is falsy in Python, so an empty workspace filter
never skips. -/
def wsSkip (workspace : Option String) (msg : IndexedMessage) : Bool :=
  match workspace with
  | none => false
  | some w => w != "" && !(strStartsWith w msg.workspace)

/-- `indexer.py` `search` line 330:
`if source and msg.source != source: continue` (enum members are
always truthy). -/
def srcSkip (src : Option Source) (msg : IndexedMessage) : Bool :=
  match src with
  | none => false
  | some s => msg.source != s

/-- Dot product of two embedding vectors
(`np.dot(candidate_embeddings, query_embedding)` rows). -/
def dot (a b : List ℚ) : ℚ :=
  ((a.zip b).map (fun p => p.1 * p.2)).sum

/-- `indexer.py` `search` lines 318–337: the walk over the
similarity-ranked candidate list. `k` is `len(results)` so far; a score
below the threshold breaks out of the loop entirely; filter mismatches
skip; after appending, `len(results) >= max_results` breaks. -/
def searchLoop (msgs : List IndexedMessage) (cands : List ℕ)
    (sims : List ℚ) (workspace : Option String) (src : Option Source)
    (threshold : ℚ) (maxResults : ℕ) :
    List ℕ → ℕ → List (IndexedMessage × ℚ)
  | [], _ => []
  | li :: rest, k =>
    let score := sims.getD li 0
    if score < threshold then []
    else
      let msg := msgs.getD (cands.getD li 0) default
      if wsSkip workspace msg || srcSkip src msg then
        searchLoop msgs cands sims workspace src threshold maxResults rest k
      else
        (msg, score) ::
          (if maxResults ≤ k + 1 then []
           else
             searchLoop msgs cands sims workspace src threshold maxResults
               rest (k + 1))

/-- `indexer.py` `search` line 316:
`sorted_local_indices = np.argsort(similarities)[::-1]`. -/
def sortedLocalIndices (sims : List ℚ) : List ℕ :=
  (argsort (fun i => sims.getD i 0) sims.length).reverse

/-- `indexer.py` `ConversationIndex.search` over a built index: the
messages and the parallel embedding matrix are the index state, and the
query embedding is the output of `model.encode` on the query (the
embedding model is an external capability). `ensure_index` is modelled
separately (`ensureIndex`); this is the search over a fixed corpus. -/
def ConversationIndex.search (msgs : List IndexedMessage)
    (embeddings : List (List ℚ)) (queryEmbedding : List ℚ)
    (workspace : Option String) (src : Option Source) (threshold : ℚ)
    (maxResults : ℕ) (after before : Option ℤ) :
    List (IndexedMessage × ℚ) :=
  if embeddings.length = 0 then []
  else
    let cands := candidateIndices (msgs.map (·.timestamp)) after before
    if cands.length = 0 then []
    else
      let sims := cands.map (fun gi => dot (embeddings.getD gi []) queryEmbedding)
      searchLoop msgs cands sims workspace src threshold maxResults
        (sortedLocalIndices sims) 0

/-- Example message in workspace `A/x` (used in concrete evaluations of
the search walk). -/
def exMsgA : IndexedMessage :=
  ⟨"m0", "s", "A/x", 0, "user", "t0", 0, Source.cli⟩

/-- Example message in workspace `B`. -/
def exMsgB : IndexedMessage :=
  ⟨"m1", "s", "B", 1, "user", "t1", 1, Source.cli⟩

/-- Example message in workspace `A/y`. -/
def exMsgC : IndexedMessage :=
  ⟨"m2", "s", "A/y", 2, "user", "t2", 2, Source.cli⟩

/-- Python `sorted(sessions, key=lambda s: s.timestamp_fallback,
reverse=True)` (`indexer.py` line 84): newest-first, stable. -/
def sortSessionsDesc (sessions : List SessionInfo) : List SessionInfo :=
  List.insertionSort
    (fun a b => b.timestamp_fallback ≤ a.timestamp_fallback) sessions

/-- `indexer.py` lines 90–91: per-session byte estimate;
`message_count if message_count > 0 else 10`, times
`BYTES_PER_MESSAGE`. -/
def sessionEstimate (s : SessionInfo) : ℤ :=
  (if 0 < s.message_count then s.message_count else 10) * BYTES_PER_MESSAGE

/-- Total estimated bytes of a list of sessions. -/
def sessionsCost (l : List SessionInfo) : ℤ :=
  (l.map sessionEstimate).sum

/-- `indexer.py` lines 89–96: the greedy scan over the newest-first
sorted sessions. `cur` is the running byte total; a session that fits
is selected, one that does not is excluded, and the scan continues
either way. -/
def selectGo (limit : ℤ) : ℤ → List SessionInfo →
    List SessionInfo × List SessionInfo
  | _, [] => ([], [])
  | cur, s :: rest =>
    if cur + sessionEstimate s ≤ limit then
      let p := selectGo limit (cur + sessionEstimate s) rest
      (s :: p.1, p.2)
    else
      let p := selectGo limit cur rest
      (p.1, s :: p.2)

/-- `indexer.py` `select_sessions_within_limit`. -/
def select_sessions_within_limit (sessions : List SessionInfo)
    (memory_limit_bytes : ℤ) : List SessionInfo × List SessionInfo :=
  if memory_limit_bytes ≤ 0 then (sessions, [])
  else selectGo memory_limit_bytes 0 (sortSessionsDesc sessions)

/-- Keys of a Python `dict` built by insertion, in first-occurrence
order (`seen` accumulates keys already emitted). -/
def keysInOrderAux {α : Type} [DecidableEq α] :
    List α → List α → List α
  | [], _ => []
  | k :: rest, seen =>
    if k ∈ seen then keysInOrderAux rest seen
    else k :: keysInOrderAux rest (k :: seen)

/-- First-occurrence-order deduplicated key list (Python `dict` key
iteration order for a dict built by repeated insertion). -/
def keysInOrder {α : Type} [DecidableEq α] (l : List α) : List α :=
  keysInOrderAux l []

/-- `query.py` line 51: stable per-session sort by message position,
`session_results.sort(key=lambda x: x[0].message_index)`. -/
def sortByIdx (l : List (IndexedMessage × ℚ)) :
    List (IndexedMessage × ℚ) :=
  List.insertionSort
    (fun a b => a.1.message_index ≤ b.1.message_index) l

/-- `query.py` line 68: final stable sort by score descending,
`deduplicated.sort(key=lambda x: x[1], reverse=True)`. -/
def sortByScoreDesc (l : List (IndexedMessage × ℚ)) :
    List (IndexedMessage × ℚ) :=
  List.insertionSort (fun a b => b.2 ≤ a.2) l

/-- `query.py` lines 54–64: the per-session merge walk.  `last` is
`kept[-1]`; a candidate within `dedup_distance` of the kept item
replaces it when its score is strictly higher (`score > last_score`),
otherwise the kept item stays; a candidate farther away commits the
kept item and starts a new one. -/
def walkDedup (dd : ℤ) :
    (IndexedMessage × ℚ) → List (IndexedMessage × ℚ) →
      List (IndexedMessage × ℚ)
  | last, [] => [last]
  | last, (m, s) :: rest =>
    if m.message_index - last.1.message_index ≤ dd then
      walkDedup dd (if last.2 < s then (m, s) else last) rest
    else
      last :: walkDedup dd (m, s) rest

/-- The per-session dedup of a (position-sorted) result list. -/
def dedupSession (dd : ℤ) :
    List (IndexedMessage × ℚ) → List (IndexedMessage × ℚ)
  | [] => []
  | x :: rest => walkDedup dd x rest

/-- `query.py` `_deduplicate_results`: group by session id in
first-occurrence order, sort each group by message position, merge
within `2 * context_size`, then re-sort everything by score
descending. -/
def deduplicateResults (results : List (IndexedMessage × ℚ))
    (context_size : ℤ) : List (IndexedMessage × ℚ) :=
  if results = [] then []
  else
    let dd := 2 * context_size
    let keys := keysInOrder (results.map (fun p => p.1.session_id))
    sortByScoreDesc
      ((keys.map (fun k =>
        dedupSession dd
          (sortByIdx (results.filter
            (fun p => p.1.session_id == k))))).flatten)

/-- `value.replace("Z", "+00:00")` from `query.py` line 23, modelled
character-by-character (the pattern `"Z"` is a single character). -/
def replaceZ (s : String) : String :=
  String.mk (s.data.foldr
    (fun c acc =>
      if c = 'Z' then '+' :: '0' :: '0' :: ':' :: '0' :: '0' :: acc
      else c :: acc) [])

/-- `query.py` `parse_date_filter`.  `fromiso` abstracts Python's
`datetime.fromisoformat` composed with the naive-timezone
normalization of line 24 (an external capability returning the parsed
timestamp, or `none` when the string is unparseable). -/
def parse_date_filter (fromiso : String → Option ℤ)
    (value : Option String) : Except String (Option ℤ) :=
  match value with
  | none => Except.ok none
  | some v =>
    match fromiso (replaceZ v) with
    | some d => Except.ok (some d)
    | none =>
      Except.error s!"Invalid date format: {v}. Use ISO 8601 (e.g., 2025-01-15)"

/-- The fields of `models.py` `SearchResponse` relevant to the verified
claims; `results` keeps the paginated `(message, score)` pairs (the
per-result context assembly is orthogonal to the claims and omitted). -/
structure SearchResponseModel where
  results : List (IndexedMessage × ℚ)
  query : String
  total_matches : ℕ
  offset : ℕ
  has_more : Bool
  hint : String
deriving DecidableEq, Repr

/-- `query.py` `search_conversations`.  `fromiso` abstracts the ISO
date parser; `rawSearch` abstracts `index.search` on a built index
(receiving the workspace/source filters, resolved threshold, requested
`(offset + max_results) * 3` candidate budget, and parsed date bounds).
A `ValueError` raise is the `Except.error` branch. -/
def search_conversations (fromiso : String → Option ℤ)
    (rawSearch : Option String → Option Source → ℚ → ℕ → Option ℤ →
      Option ℤ → List (IndexedMessage × ℚ))
    (query : String) (workspace : Option String) (src : Option Source)
    (after before : Option String) (context_size : Option ℤ)
    (threshold : Option ℚ) (max_results : Option ℕ) (offset : ℕ) :
    Except String SearchResponseModel :=
  let cs := pyOrInt context_size default_context_window
  let θ := pyOrRat threshold default_threshold
  let mr := pyOrNat max_results default_max_results
  match parse_date_filter fromiso after with
  | Except.error e => Except.error e
  | Except.ok afterDt =>
    match parse_date_filter fromiso before with
    | Except.error e => Except.error e
    | Except.ok beforeDt =>
      let raw := rawSearch workspace src θ ((offset + mr) * 3) afterDt
        beforeDt
      if raw = [] then
        Except.ok ⟨[], query, 0, 0, false, generateHint 0 0 0 mr false⟩
      else
        let dd := deduplicateResults raw cs
        let total := dd.length
        let page := (dd.drop offset).take mr
        let hasMore := decide (offset + page.length < total)
        Except.ok ⟨page, query, total, offset, hasMore,
          generateHint total offset page.length mr hasMore⟩

/-- The state of `ConversationIndex` relevant to rebuild decisions:
the fingerprint captured at the last build and the optional embedding
matrix (`None` before the first build). -/
structure EnsureState where
  sessions_fingerprint : String
  embeddings : Option (List (List ℚ))
deriving DecidableEq, Repr

/-- `indexer.py` `needs_rebuild`: the current fingerprint of the live
session set (an external input, unchanged while the session set is
unchanged) differs from the recorded one. -/
def needs_rebuild (current : String) (st : EnsureState) : Bool :=
  current != st.sessions_fingerprint

/-- `indexer.py` `build_index`, restricted to the state relevant here:
records the current fingerprint and replaces the embeddings wholesale
(`corpus` abstracts the embedding matrix computed from the selected
sessions). -/
def build_index (current : String) (corpus : List (List ℚ))
    (_st : EnsureState) : EnsureState :=
  { sessions_fingerprint := current, embeddings := some corpus }

/-- `indexer.py` `ensure_index`: build iff there is no embedding matrix
yet or the fingerprint changed.  The returned Boolean records whether
`build_index` ran. -/
def ensure_index (current : String) (corpus : List (List ℚ))
    (st : EnsureState) : EnsureState × Bool :=
  if st.embeddings.isNone || needs_rebuild current st then
    (build_index current corpus st, true)
  else (st, false)

/-- `indexer.py` `build_index` lines 222–227: the texts whose content
hash misses the pre-existing cache, in message order, duplicates
included (the membership test is against the cache loaded before the
loop, which is not updated inside the loop).  Texts stand for their
own content hashes (hashing assumed collision-free); the text type is
abstracted. -/
def texts_to_embed {α : Type} [DecidableEq α] (msgs : List α)
    (cacheKeys : List α) : List α :=
  msgs.filter (fun t => decide (t ∉ cacheKeys))

/-- Fuel-indexed chunking (structural recursion; `fuel = l.length`
suffices for a positive chunk size). -/
def chunksGo {α : Type} (n : ℕ) : ℕ → List α → List (List α)
  | 0, _ => []
  | _, [] => []
  | fuel + 1, l => l.take n :: chunksGo n fuel (l.drop n)

/-- `indexer.py` lines 244–248: the batches
`texts_to_embed[batch_start:batch_end]` for
`batch_start in range(0, len(texts_to_embed), batch_size)`. -/
def chunks {α : Type} (n : ℕ) (l : List α) : List (List α) :=
  chunksGo n l.length l

/-- The number of `model.encode` batch calls whose batch contains the
text `t` during one index build. -/
def model_calls_containing {α : Type} [DecidableEq α] (t : α)
    (msgs cacheKeys : List α) : ℕ :=
  (chunks 100 (texts_to_embed msgs cacheKeys)).countP
    (fun b => decide (t ∈ b))

/-- `indexer.py` lines 241–259: the keys of `new_cache` (a Python dict
keyed by content hash, hence first-occurrence deduplicated). -/
def new_cache_keys {α : Type} [DecidableEq α] (msgs cacheKeys : List α) :
    List α :=
  keysInOrder (texts_to_embed msgs cacheKeys)

/-- `indexer.py` `_save_cache` line 159: the key set of
`{**existing, **new_embeddings}` (every new key misses `existing` by
construction, so appending is faithful). -/
def merged_cache_keys {α : Type} [DecidableEq α] (msgs cacheKeys : List α) :
    List α :=
  cacheKeys ++ new_cache_keys msgs cacheKeys

/-- Example message for dedup evaluations: position `i`, all in one
session. -/
def dMsg (i : ℤ) : IndexedMessage :=
  ⟨"u", "sess", "w", i, "user", "t", i, Source.cli⟩

/-- Example session: newest, large (10 messages → 26000 estimated
bytes). -/
def sessBig : SessionInfo :=
  ⟨"big", "w", 10, none, some 100, Source.cli⟩

/-- Example session: older, small (1 message → 2600 estimated bytes). -/
def sessSmall : SessionInfo :=
  ⟨"small", "w", 1, none, some 50, Source.cli⟩

/-- `l₁` is a leading slice (`take`-prefix) of `l₂`. -/
def isLeadingSlice {α : Type} [DecidableEq α] (l₁ l₂ : List α) : Bool :=
  decide (l₁ = l₂.take l₁.length)

/-- A concrete 25-match raw result list: one session, positions 7 apart
(so deduplication keeps all of them), scores strictly decreasing. -/
def pageResults : List (IndexedMessage × ℚ) :=
  (List.range 25).map
    (fun i => (dMsg (7 * (i : ℤ)), mkRat (100 - (i : ℤ)) 100))

theorem argsortRel_total {β : Type} [LinearOrder β] (f : ℕ → β) :
    ∀ i j, argsortRel f i j ∨ argsortRel f j i := by
  intro i j
  rcases lt_trichotomy (f i) (f j) with h | h | h
  · exact Or.inl (Or.inl h)
  · rcases Nat.le_total i j with hij | hij
    · exact Or.inl (Or.inr ⟨h, hij⟩)
    · exact Or.inr (Or.inr ⟨h.symm, hij⟩)
  · exact Or.inr (Or.inl h)

theorem argsortRel_trans {β : Type} [LinearOrder β] (f : ℕ → β) :
    ∀ i j k, argsortRel f i j → argsortRel f j k → argsortRel f i k := by
  intro i j k hij hjk
  rcases hij with h1 | ⟨h1, h1'⟩ <;> rcases hjk with h2 | ⟨h2, h2'⟩
  · exact Or.inl (h1.trans h2)
  · exact Or.inl (h2 ▸ h1)
  · exact Or.inl (h1 ▸ h2)
  · exact Or.inr ⟨h1.trans h2, h1'.trans h2'⟩

theorem argsort_perm {β : Type} [LinearOrder β] (f : ℕ → β) (n : ℕ) :
    (argsort f n).Perm (List.range n) :=
  List.perm_insertionSort _ _

theorem argsort_mem {β : Type} [LinearOrder β] (f : ℕ → β) (n : ℕ) (i : ℕ) :
    i ∈ argsort f n ↔ i < n := by
  rw [(argsort_perm f n).mem_iff, List.mem_range]

theorem argsort_sorted {β : Type} [LinearOrder β] (f : ℕ → β) (n : ℕ) :
    (argsort f n).Pairwise (argsortRel f) := by
  haveI : IsTotal ℕ (argsortRel f) := ⟨argsortRel_total f⟩
  haveI : IsTrans ℕ (argsortRel f) := ⟨fun a b c => argsortRel_trans f a b c⟩
  exact List.sorted_insertionSort _ _

theorem argsort_nodup {β : Type} [LinearOrder β] (f : ℕ → β) (n : ℕ) :
    (argsort f n).Nodup :=
  (argsort_perm f n).nodup_iff.mpr (List.nodup_range n)

/-- A slice `l[start:stop]` of a list sorted w.r.t. a relation `r`, with
`start` counting the elements failing a lower bound and `stop` counting
the elements passing an upper bound, equals the filter by both bounds —
provided the lower bound is upward closed and the upper bound downward
closed along `r`. This is the correctness of the `np.searchsorted`
range slicing in `ConversationIndex.search`. -/
theorem sorted_slice_eq_filter {ι : Type} {r : ι → ι → Prop}
    (lb ub : ι → Bool) :
    ∀ (l : List ι), l.Pairwise r →
    (∀ i j, r i j → lb i = true → lb j = true) →
    (∀ i j, r i j → ub j = true → ub i = true) →
    (l.drop (l.countP (fun i => !lb i))).take
        (l.countP ub - l.countP (fun i => !lb i)) =
      l.filter (fun i => lb i && ub i) := by
  intro l
  induction l with
  | nil => intro _ _ _; simp
  | cons x xs ih =>
    intro hsort hlb hub
    rw [List.pairwise_cons] at hsort
    obtain ⟨hx, hxs⟩ := hsort
    by_cases hlbx : lb x = true
    · have hall_lb : ∀ y ∈ xs, lb y = true := fun y hy => hlb _ _ (hx y hy) hlbx
      have hc1 : (x :: xs).countP (fun i => !lb i) = 0 := by
        rw [List.countP_eq_zero]
        intro a ha
        rcases List.mem_cons.mp ha with h | h
        · subst h; simp [hlbx]
        · simp [hall_lb a h]
      have hc1xs : xs.countP (fun i => !lb i) = 0 := by
        rw [List.countP_eq_zero]
        intro a ha
        simp [hall_lb a ha]
      by_cases hubx : ub x = true
      · have hcub : (x :: xs).countP ub = xs.countP ub + 1 :=
          List.countP_cons_of_pos _ _ hubx
        have := ih hxs hlb hub
        rw [hc1xs] at this
        simp only [hc1, hcub, List.drop_zero, Nat.sub_zero, List.take_succ_cons,
          List.filter_cons, hlbx, hubx, Bool.and_self]
        rw [List.drop_zero, Nat.sub_zero] at this
        rw [this]
        simp
      · have hall_ub : ∀ y ∈ xs, ¬ ub y = true := fun y hy hu =>
          hubx (hub _ _ (hx y hy) hu)
        have hcub : (x :: xs).countP ub = 0 := by
          rw [List.countP_eq_zero]
          intro a ha
          rcases List.mem_cons.mp ha with h | h
          · subst h; exact hubx
          · exact hall_ub a h
        have hfil : (x :: xs).filter (fun i => lb i && ub i) = [] := by
          rw [List.filter_eq_nil_iff]
          intro a ha
          rcases List.mem_cons.mp ha with h | h
          · subst h; simp [hubx]
          · simp [hall_ub a h]
        simp [hcub, hfil]
    · have hc1 : (x :: xs).countP (fun i => !lb i) =
          xs.countP (fun i => !lb i) + 1 := by
        apply List.countP_cons_of_pos
        simp [hlbx]
      by_cases hubx : ub x = true
      · have hcub : (x :: xs).countP ub = xs.countP ub + 1 :=
          List.countP_cons_of_pos _ _ hubx
        have := ih hxs hlb hub
        simp only [hc1, hcub, List.drop_succ_cons, Nat.succ_sub_succ,
          List.filter_cons, hlbx]
        simpa using this
      · have hall_ub : ∀ y ∈ xs, ¬ ub y = true := fun y hy hu =>
          hubx (hub _ _ (hx y hy) hu)
        have hcub : (x :: xs).countP ub = 0 := by
          rw [List.countP_eq_zero]
          intro a ha
          rcases List.mem_cons.mp ha with h | h
          · subst h; exact hubx
          · exact hall_ub a h
        have hfil : (x :: xs).filter (fun i => lb i && ub i) = [] := by
          rw [List.filter_eq_nil_iff]
          intro a ha
          rcases List.mem_cons.mp ha with h | h
          · subst h; simp [hubx]
          · simp [hall_ub a h]
        simp [hcub, hfil]

theorem lowerIdx_eq_countP (ts : List ℤ) (after : Option ℤ) :
    lowerIdx ts after =
      (timestampOrder ts).countP (fun i => !(lbB after (ts.getD i 0))) := by
  cases after with
  | none =>
    simp [lowerIdx, lbB]
  | some a =>
    rw [lowerIdx, searchsortedLeft, sortedTimestamps, List.countP_map]
    apply List.countP_congr
    intro i _
    by_cases h : a ≤ ts.getD i 0
    · simp [lbB, h, not_lt_of_le h]
    · simp [lbB, h, lt_of_not_le h]

theorem upperIdx_eq_countP (ts : List ℤ) (before : Option ℤ) :
    upperIdx ts before =
      (timestampOrder ts).countP (fun i => ubB before (ts.getD i 0)) := by
  cases before with
  | none =>
    simp [upperIdx, ubB, sortedTimestamps, List.countP_true]
  | some b =>
    rw [upperIdx, searchsortedLeft, sortedTimestamps, List.countP_map]
    rfl

theorem candidateIndices_bounded_eq (ts : List ℤ) (after before : Option ℤ)
    (h : after.isSome ∨ before.isSome) :
    candidateIndices ts after before =
      (timestampOrder ts).filter
        (fun i => lbB after (ts.getD i 0) && ubB before (ts.getD i 0)) := by
  have hmatch : candidateIndices ts after before =
      ((timestampOrder ts).drop (lowerIdx ts after)).take
        (upperIdx ts before - lowerIdx ts after) := by
    cases after <;> cases before <;> simp_all [candidateIndices]
  rw [hmatch, lowerIdx_eq_countP, upperIdx_eq_countP]
  apply sorted_slice_eq_filter _ _ _ (argsort_sorted _ _)
  · intro i j hr hlbi
    cases after with
    | none => simp [lbB]
    | some a =>
      simp only [lbB, decide_eq_true_eq] at hlbi ⊢
      rcases hr with h1 | ⟨h1, _⟩
      · exact hlbi.trans h1.le
      · exact hlbi.trans (le_of_eq h1)
  · intro i j hr hubj
    cases before with
    | none => simp [ubB]
    | some b =>
      simp only [ubB, decide_eq_true_eq] at hubj ⊢
      rcases hr with h1 | ⟨h1, _⟩
      · exact h1.trans hubj
      · exact lt_of_le_of_lt (le_of_eq h1) hubj

/-- Characterization of the date-filtered candidate set: an index is a
candidate iff it is a valid message index whose timestamp satisfies
`after ≤ t` (when `after` is given) and `t < before` (when `before` is
given). -/
theorem mem_candidateIndices (ts : List ℤ) (after before : Option ℤ)
    (i : ℕ) :
    i ∈ candidateIndices ts after before ↔
      i < ts.length ∧ lbB after (ts.getD i 0) = true ∧
        ubB before (ts.getD i 0) = true := by
  cases hA : after with
  | none =>
    cases hB : before with
    | none => simp [candidateIndices, lbB, ubB]
    | some b =>
      rw [candidateIndices_bounded_eq ts none (some b) (by simp)]
      rw [List.mem_filter, timestampOrder, argsort_mem]
      simp [Bool.and_eq_true]
  | some a =>
    rw [candidateIndices_bounded_eq ts (some a) before (by simp)]
    rw [List.mem_filter, timestampOrder, argsort_mem]
    simp [Bool.and_eq_true]

/-- Every result of the walk is the message/score pair of some walked
local index, and the walked indices form a sublist (order-preserving
subsequence) of the input index list. -/
theorem searchLoop_sublist (msgs : List IndexedMessage) (cands : List ℕ)
    (sims : List ℚ) (ws : Option String) (src : Option Source) (θ : ℚ)
    (mr : ℕ) :
    ∀ (l : List ℕ) (k : ℕ), ∃ l' : List ℕ, List.Sublist l' l ∧
      searchLoop msgs cands sims ws src θ mr l k =
        l'.map (fun li =>
          (msgs.getD (cands.getD li 0) default, sims.getD li 0)) := by
  intro l
  induction l with
  | nil => exact fun k => ⟨[], List.Sublist.refl _, rfl⟩
  | cons li rest ih =>
    intro k
    rcases lt_or_le (sims.getD li 0) θ with hθ | hθ
    · refine ⟨[], List.nil_sublist _, ?_⟩
      rw [searchLoop]
      dsimp only
      rw [if_pos hθ]
      rfl
    · by_cases hskip :
        (wsSkip ws (msgs.getD (cands.getD li 0) default) ||
          srcSkip src (msgs.getD (cands.getD li 0) default)) = true
      · obtain ⟨l', hsub, heq⟩ := ih k
        refine ⟨l', hsub.trans (List.sublist_cons_self li rest), ?_⟩
        rw [searchLoop]
        dsimp only
        rw [if_neg (not_lt.mpr hθ), if_pos hskip]
        exact heq
      · by_cases hmr : mr ≤ k + 1
        · refine ⟨[li], List.singleton_sublist.mpr (List.mem_cons_self li rest), ?_⟩
          rw [searchLoop]
          dsimp only
          rw [if_neg (not_lt.mpr hθ), if_neg hskip, if_pos hmr]
          rfl
        · obtain ⟨l', hsub, heq⟩ := ih (k + 1)
          refine ⟨li :: l', hsub.cons₂ li, ?_⟩
          rw [searchLoop]
          dsimp only
          rw [if_neg (not_lt.mpr hθ), if_neg hskip, if_neg hmr, heq]
          rfl

/-- Every score in the walk's result is at least the threshold. -/
theorem searchLoop_scores_ge (msgs : List IndexedMessage) (cands : List ℕ)
    (sims : List ℚ) (ws : Option String) (src : Option Source) (θ : ℚ)
    (mr : ℕ) :
    ∀ (l : List ℕ) (k : ℕ) (p : IndexedMessage × ℚ),
      p ∈ searchLoop msgs cands sims ws src θ mr l k → θ ≤ p.2 := by
  intro l
  induction l with
  | nil => intro k p hp; exact absurd hp (List.not_mem_nil p)
  | cons li rest ih =>
    intro k p hp
    rw [searchLoop] at hp
    dsimp only at hp
    rcases lt_or_le (sims.getD li 0) θ with hθ | hθ
    · rw [if_pos hθ] at hp
      exact absurd hp (List.not_mem_nil p)
    · rw [if_neg (not_lt.mpr hθ)] at hp
      by_cases hskip :
        (wsSkip ws (msgs.getD (cands.getD li 0) default) ||
          srcSkip src (msgs.getD (cands.getD li 0) default)) = true
      · rw [if_pos hskip] at hp
        exact ih k p hp
      · rw [if_neg hskip] at hp
        rw [List.mem_cons] at hp
        rcases hp with hp | hp
        · rw [hp]
          exact hθ
        · by_cases hmr : mr ≤ k + 1
          · rw [if_pos hmr] at hp
            exact absurd hp (List.not_mem_nil p)
          · rw [if_neg hmr] at hp
            exact ih (k + 1) p hp

/-- The walk stops entirely at the first below-threshold score: its
result only depends on the longest prefix of the ranked list whose
scores stay at or above the threshold.  Candidates after that point are
never examined. -/
theorem searchLoop_takeWhile (msgs : List IndexedMessage) (cands : List ℕ)
    (sims : List ℚ) (ws : Option String) (src : Option Source) (θ : ℚ)
    (mr : ℕ) :
    ∀ (l : List ℕ) (k : ℕ),
      searchLoop msgs cands sims ws src θ mr l k =
        searchLoop msgs cands sims ws src θ mr
          (l.takeWhile (fun li => decide (θ ≤ sims.getD li 0))) k := by
  intro l
  induction l with
  | nil => intro k; rfl
  | cons li rest ih =>
    intro k
    rcases lt_or_le (sims.getD li 0) θ with hθ | hθ
    · have hpred : ¬ (decide (θ ≤ sims.getD li 0) = true) := by
        simp only [decide_eq_true_eq]
        exact not_le.mpr hθ
      rw [List.takeWhile_cons, if_neg hpred]
      rw [searchLoop]
      rw [searchLoop]
      simp only [if_pos hθ]
    · have hpred : decide (θ ≤ sims.getD li 0) = true := by
        simp only [decide_eq_true_eq]
        exact hθ
      rw [List.takeWhile_cons, if_pos hpred]
      rw [searchLoop, searchLoop]
      simp only [if_neg (not_lt.mpr hθ)]
      by_cases hskip :
        (wsSkip ws (msgs.getD (cands.getD li 0) default) ||
          srcSkip src (msgs.getD (cands.getD li 0) default)) = true
      · simp only [if_pos hskip]
        exact ih k
      · simp only [if_neg hskip]
        by_cases hmr : mr ≤ k + 1
        · simp only [if_pos hmr]
        · simp only [if_neg hmr]
          rw [ih (k + 1)]

/-- The ranked candidate order produced by
`np.argsort(similarities)[::-1]` is pairwise ordered: a later entry has
a strictly smaller similarity, or an equal similarity and a smaller
original index (ties come out in reverse of the original candidate
order). -/
theorem sortedLocalIndices_pairwise (sims : List ℚ) :
    (sortedLocalIndices sims).Pairwise
      (fun i j => sims.getD j 0 < sims.getD i 0 ∨
        (sims.getD i 0 = sims.getD j 0 ∧ j < i)) := by
  have h1 := argsort_sorted (fun i => sims.getD i 0) sims.length
  have h2 : (argsort (fun i => sims.getD i 0) sims.length).Pairwise
      (fun i j : ℕ => i ≠ j) :=
    argsort_nodup (fun i => sims.getD i 0) sims.length
  have h3 := h1.and h2
  rw [sortedLocalIndices, List.pairwise_reverse]
  refine h3.imp ?_
  intro i j hij
  obtain ⟨hr, hne⟩ := hij
  rcases hr with h | ⟨h, hle⟩
  · exact Or.inl h
  · exact Or.inr ⟨h.symm, lt_of_le_of_ne hle hne⟩

/-- `ConversationIndex.search` either returns the empty list through one
of its guard branches or runs the ranked walk over the date-filtered
candidates. -/
theorem ConversationIndex.search_eq (msgs : List IndexedMessage)
    (embeddings : List (List ℚ)) (q : List ℚ) (ws : Option String)
    (src : Option Source) (θ : ℚ) (mr : ℕ) (after before : Option ℤ) :
    ConversationIndex.search msgs embeddings q ws src θ mr after before = []
    ∨
    ConversationIndex.search msgs embeddings q ws src θ mr after before =
      searchLoop msgs (candidateIndices (msgs.map (·.timestamp)) after before)
        ((candidateIndices (msgs.map (·.timestamp)) after before).map
          (fun gi => dot (embeddings.getD gi []) q))
        ws src θ mr
        (sortedLocalIndices
          ((candidateIndices (msgs.map (·.timestamp)) after before).map
            (fun gi => dot (embeddings.getD gi []) q))) 0 := by
  rw [ConversationIndex.search]
  by_cases h1 : embeddings.length = 0
  · exact Or.inl (by rw [if_pos h1])
  · rw [if_neg h1]
    by_cases h2 :
      (candidateIndices (msgs.map (·.timestamp)) after before).length = 0
    · exact Or.inl (by simp only [if_pos h2])
    · exact Or.inr (by simp only [if_neg h2])

/-- C1: for every fixed corpus and query, `ConversationIndex.search`
returns scores in non-increasing order, every returned score is at
least the threshold, the walk of the ranked candidate list depends only
on (hence never examines anything past) the prefix of candidates whose
scores stay at or above the threshold, and a workspace/source filter
mismatch merely skips a candidate without stopping the walk (concrete
run: candidate `exMsgB` fails the `"A"` workspace filter and the walk
still returns the later candidate `exMsgC`). -/
theorem C1_search_ordering_and_early_exit :
    (∀ (msgs : List IndexedMessage) (embeddings : List (List ℚ))
       (q : List ℚ) (ws : Option String) (src : Option Source) (θ : ℚ)
       (mr : ℕ) (after before : Option ℤ) (p : IndexedMessage × ℚ),
       p ∈ ConversationIndex.search msgs embeddings q ws src θ mr
          after before → θ ≤ p.2) ∧
    (∀ (msgs : List IndexedMessage) (embeddings : List (List ℚ))
       (q : List ℚ) (ws : Option String) (src : Option Source) (θ : ℚ)
       (mr : ℕ) (after before : Option ℤ),
       ((ConversationIndex.search msgs embeddings q ws src θ mr
          after before).map Prod.snd).Pairwise (fun a b => b ≤ a)) ∧
    (∀ (msgs : List IndexedMessage) (cands : List ℕ) (sims : List ℚ)
       (ws : Option String) (src : Option Source) (θ : ℚ) (mr : ℕ)
       (l : List ℕ) (k : ℕ),
       searchLoop msgs cands sims ws src θ mr l k =
         searchLoop msgs cands sims ws src θ mr
           (l.takeWhile (fun li => decide (θ ≤ sims.getD li 0))) k) ∧
    (searchLoop [exMsgA, exMsgB, exMsgC] [0, 1, 2]
        [mkRat 9 10, mkRat 8 10, mkRat 7 10] (some "A") none (mkRat 0 1) 10
        (sortedLocalIndices [mkRat 9 10, mkRat 8 10, mkRat 7 10]) 0 =
      [(exMsgA, mkRat 9 10), (exMsgC, mkRat 7 10)]) := by
  refine ⟨?_, ?_, fun msgs cands sims ws src θ mr l k =>
    searchLoop_takeWhile msgs cands sims ws src θ mr l k, by decide⟩
  · intro msgs embeddings q ws src θ mr after before p hp
    rcases ConversationIndex.search_eq msgs embeddings q ws src θ mr
      after before with h | h
    · rw [h] at hp
      exact absurd hp (List.not_mem_nil p)
    · rw [h] at hp
      exact searchLoop_scores_ge _ _ _ _ _ _ _ _ _ _ hp
  · intro msgs embeddings q ws src θ mr after before
    rcases ConversationIndex.search_eq msgs embeddings q ws src θ mr
      after before with h | h
    · rw [h]
      exact List.Pairwise.nil
    · set cands := candidateIndices (msgs.map (·.timestamp)) after before
        with hcands
      set sims := cands.map (fun gi => dot (embeddings.getD gi []) q)
        with hsims
      rw [h]
      obtain ⟨l', hsub, heq⟩ := searchLoop_sublist msgs cands sims ws src θ
        mr (sortedLocalIndices sims) 0
      rw [heq, List.map_map]
      have hpl' := (sortedLocalIndices_pairwise sims).sublist hsub
      rw [List.pairwise_map]
      refine hpl'.imp ?_
      intro i j hij
      rcases hij with hlt | ⟨heq', _⟩
      · exact le_of_lt hlt
      · exact le_of_eq heq'.symm

/-- Witness for C1: a concrete one-message search in which the returned
score meets the threshold. -/
theorem C1_search_ordering_and_early_exit_witness :
    (mkRat 0 1 : ℚ) ≤ ((exMsgA, (0 : ℚ))).2 :=
  C1_search_ordering_and_early_exit.1 [exMsgA] [[]] [] none none
    (mkRat 0 1) 10 none none (exMsgA, (0 : ℚ)) (by decide)

/-- C2: date filtering.  The candidate set computed by the binary-search
slice of the timestamp-sorted permutation is exactly the set of message
indices whose timestamp `t` satisfies `A ≤ t` (when `after = some A`)
and `t < B` (when `before = some B`); consequently every message
returned by `ConversationIndex.search` satisfies the given bounds; and
on the corpus with timestamps `[5, 10, 15]` the filter `after = 7`
yields exactly the candidates with timestamps `10` and `15`. -/
theorem C2_date_filtering :
    (∀ (ts : List ℤ) (after before : Option ℤ) (i : ℕ),
      i ∈ candidateIndices ts after before ↔
        i < ts.length ∧ lbB after (ts.getD i 0) = true ∧
          ubB before (ts.getD i 0) = true) ∧
    (∀ (msgs : List IndexedMessage) (embeddings : List (List ℚ))
       (q : List ℚ) (ws : Option String) (src : Option Source) (θ : ℚ)
       (mr : ℕ) (after before : Option ℤ) (p : IndexedMessage × ℚ),
       p ∈ ConversationIndex.search msgs embeddings q ws src θ mr
          after before →
         lbB after p.1.timestamp = true ∧ ubB before p.1.timestamp = true) ∧
    (candidateIndices [5, 10, 15] (some 7) none = [1, 2]) := by
  refine ⟨mem_candidateIndices, ?_, by decide⟩
  intro msgs embeddings q ws src θ mr after before p hp
  rcases ConversationIndex.search_eq msgs embeddings q ws src θ mr
    after before with h | h
  · rw [h] at hp
    exact absurd hp (List.not_mem_nil p)
  · set cands := candidateIndices (msgs.map (·.timestamp)) after before
      with hcands
    set sims := cands.map (fun gi => dot (embeddings.getD gi []) q)
      with hsims
    rw [h] at hp
    obtain ⟨l', hsub, heq⟩ := searchLoop_sublist msgs cands sims ws src θ
      mr (sortedLocalIndices sims) 0
    rw [heq] at hp
    rw [List.mem_map] at hp
    obtain ⟨li, hli, hpeq⟩ := hp
    have hli2 : li ∈ sortedLocalIndices sims := hsub.mem hli
    have hlt : li < sims.length := by
      rw [sortedLocalIndices, List.mem_reverse, argsort_mem] at hli2
      exact hli2
    have hltc : li < cands.length := by
      rw [hsims, List.length_map] at hlt
      exact hlt
    have hgi : cands.getD li 0 ∈ cands := by
      rw [List.getD_eq_getElem cands 0 hltc]
      exact List.getElem_mem hltc
    rw [hcands, mem_candidateIndices] at hgi
    obtain ⟨hgi1, hgi2, hgi3⟩ := hgi
    have hts : (msgs.map (·.timestamp)).getD (cands.getD li 0) 0 =
        p.1.timestamp := by
      have hgim : cands.getD li 0 < msgs.length := by
        rw [List.length_map] at hgi1
        exact hgi1
      rw [List.getD_eq_getElem _ 0 hgi1, List.getElem_map]
      have : p.1 = msgs.getD (cands.getD li 0) default := by
        rw [← hpeq]
      rw [this, List.getD_eq_getElem _ default hgim]
    rw [hts] at hgi2 hgi3
    exact ⟨hgi2, hgi3⟩

/-- Witness for C2: a concrete one-message search with a satisfied
lower bound; the returned message's timestamp passes both bound
tests. -/
theorem C2_date_filtering_witness :
    lbB (some (-5)) ((exMsgA, (0 : ℚ)).1.timestamp) = true ∧
      ubB none ((exMsgA, (0 : ℚ)).1.timestamp) = true :=
  C2_date_filtering.2.1 [exMsgA] [[]] [] none none (mkRat 0 1) 10
    (some (-5)) none (exMsgA, (0 : ℚ)) (by decide)

/-- C7 counterexample: with two candidates of equal similarity `1/2`,
the ranked order produced by `np.argsort(similarities)[::-1]` is
`[1, 0]` — the later candidate comes first — refuting the claim that
ties are broken by the candidates' original relative order (which would
rank candidate `0` first). -/
theorem C7_tie_order_counterexample :
    sortedLocalIndices [mkRat 1 2, mkRat 1 2] = [1, 0] ∧
    ¬ ((sortedLocalIndices [mkRat 1 2, mkRat 1 2]).indexOf 0 <
        (sortedLocalIndices [mkRat 1 2, mkRat 1 2]).indexOf 1) := by
  decide

/-- C7 (amended): the ranked candidate order is similarity-descending
with ties broken by the *reverse* of the candidates' original relative
order: whenever candidate `i` precedes candidate `j` in the ranked
walk, either `i`'s similarity is strictly larger, or the similarities
are equal and `i` is the *later* original candidate (`j < i`). -/
theorem C7_tie_order_amended (sims : List ℚ) :
    (sortedLocalIndices sims).Pairwise
      (fun i j => sims.getD j 0 < sims.getD i 0 ∨
        (sims.getD i 0 = sims.getD j 0 ∧ j < i)) :=
  sortedLocalIndices_pairwise sims

theorem sortByScoreDesc_sorted (l : List (IndexedMessage × ℚ)) :
    (sortByScoreDesc l).Pairwise (fun a b => b.2 ≤ a.2) := by
  haveI : IsTotal (IndexedMessage × ℚ) (fun a b => b.2 ≤ a.2) :=
    ⟨fun a b => le_total b.2 a.2⟩
  haveI : IsTrans (IndexedMessage × ℚ) (fun a b => b.2 ≤ a.2) :=
    ⟨fun _ _ _ hab hbc => hbc.trans hab⟩
  exact List.sorted_insertionSort _ _

theorem deduplicateResults_scores_sorted
    (results : List (IndexedMessage × ℚ)) (cs : ℤ) :
    ((deduplicateResults results cs).map Prod.snd).Pairwise
      (fun a b => b ≤ a) := by
  rw [deduplicateResults]
  by_cases h : results = []
  · rw [if_pos h]
    exact List.Pairwise.nil
  · rw [if_neg h]
    rw [List.pairwise_map]
    exact sortByScoreDesc_sorted _

/-- The per-session merge walk, on a position-sorted input whose
positions all lie at or after the running kept item's position,
produces kept entries whose consecutive positions are more than `dd`
apart; the first produced entry sits at or after the running kept
item. -/
theorem walkDedup_spec (dd : ℤ) :
    ∀ (l : List (IndexedMessage × ℚ)) (last : IndexedMessage × ℚ),
      l.Pairwise (fun a b => a.1.message_index ≤ b.1.message_index) →
      (∀ y ∈ l, last.1.message_index ≤ y.1.message_index) →
      (walkDedup dd last l).Chain'
        (fun a b => a.1.message_index + dd < b.1.message_index) ∧
      (∀ z ∈ (walkDedup dd last l).head?,
        last.1.message_index ≤ z.1.message_index) := by
  intro l
  induction l with
  | nil =>
    intro last _ _
    refine ⟨List.chain'_singleton _, ?_⟩
    intro z hz
    rw [walkDedup] at hz
    rw [List.head?_cons, Option.mem_some_iff] at hz
    rw [← hz]
  | cons p rest ih =>
    intro last hsort hlast
    obtain ⟨m, s⟩ := p
    rw [List.pairwise_cons] at hsort
    obtain ⟨hm, hrest⟩ := hsort
    have hlastm : last.1.message_index ≤ m.message_index :=
      hlast (m, s) (List.mem_cons_self _ _)
    by_cases hd : m.message_index - last.1.message_index ≤ dd
    · rw [walkDedup, if_pos hd]
      have hl'ge : last.1.message_index ≤
          (if last.2 < s then (m, s) else last).1.message_index := by
        by_cases hsc : last.2 < s
        · rw [if_pos hsc]
          exact hlastm
        · rw [if_neg hsc]
      have h1 : ∀ y ∈ rest,
          (if last.2 < s then (m, s) else last).1.message_index ≤
            y.1.message_index := by
        intro y hy
        by_cases hsc : last.2 < s
        · rw [if_pos hsc]
          exact hm y hy
        · rw [if_neg hsc]
          exact hlast y (List.mem_cons_of_mem _ hy)
      obtain ⟨hc, hh⟩ := ih (if last.2 < s then (m, s) else last) hrest h1
      exact ⟨hc, fun z hz => le_trans hl'ge (hh z hz)⟩
    · rw [walkDedup, if_neg hd]
      obtain ⟨hc, hh⟩ := ih (m, s) hrest hm
      refine ⟨?_, ?_⟩
      · rw [List.chain'_cons']
        refine ⟨?_, hc⟩
        intro z hz
        have h2 : m.message_index ≤ z.1.message_index := hh z hz
        have h3 : ¬ m.message_index - last.1.message_index ≤ dd := hd
        omega
      · intro z hz
        rw [List.head?_cons, Option.mem_some_iff] at hz
        rw [← hz]

/-- On a position-sorted session result list, the kept entries after
deduplication have consecutive positions more than `dd` apart. -/
theorem dedupSession_chain (dd : ℤ) (l : List (IndexedMessage × ℚ))
    (hsort : l.Pairwise
      (fun a b => a.1.message_index ≤ b.1.message_index)) :
    (dedupSession dd l).Chain'
      (fun a b => a.1.message_index + dd < b.1.message_index) := by
  cases l with
  | nil => exact List.chain'_nil
  | cons x rest =>
    rw [dedupSession]
    rw [List.pairwise_cons] at hsort
    exact (walkDedup_spec dd rest x hsort.2 hsort.1).1

/-- C3: deduplication.  Concretely: same-session matches at positions 4
and 5 with `contextSize = 3` collapse into one kept entry carrying the
higher score; the merge anchor is the *kept* item's position, so a
chain of close matches with rising scores merges transitively
(positions 0, 6, 12 with `dd = 6` collapse to one entry) while a
candidate that loses the score comparison does not move the anchor
(positions 0, 6, 12 with scores 0.9, 0.1, 0.5 keep entries at 0 and
12).  Generally: the final result is sorted by score descending, and
within a position-sorted session the kept entries are more than
`2 * contextSize` apart consecutively. -/
theorem C3_deduplication :
    (deduplicateResults [(dMsg 5, mkRat 7 10), (dMsg 4, mkRat 1 2)] 3 =
      [(dMsg 5, mkRat 7 10)]) ∧
    (deduplicateResults
        [(dMsg 0, mkRat 1 10), (dMsg 6, mkRat 2 10),
          (dMsg 12, mkRat 3 10)] 3 =
      [(dMsg 12, mkRat 3 10)]) ∧
    (deduplicateResults
        [(dMsg 0, mkRat 9 10), (dMsg 6, mkRat 1 10),
          (dMsg 12, mkRat 5 10)] 3 =
      [(dMsg 0, mkRat 9 10), (dMsg 12, mkRat 5 10)]) ∧
    (∀ (results : List (IndexedMessage × ℚ)) (cs : ℤ),
      ((deduplicateResults results cs).map Prod.snd).Pairwise
        (fun a b => b ≤ a)) ∧
    (∀ (dd : ℤ) (l : List (IndexedMessage × ℚ)),
      l.Pairwise (fun a b => a.1.message_index ≤ b.1.message_index) →
      (dedupSession dd l).Chain'
        (fun a b => a.1.message_index + dd < b.1.message_index)) :=
  ⟨by decide, by decide, by decide, deduplicateResults_scores_sorted,
    dedupSession_chain⟩

/-- Witness for C3: the gap property instantiated on a concrete
position-sorted two-element session. -/
theorem C3_deduplication_witness :
    (dedupSession 6 [(dMsg 0, mkRat 1 2), (dMsg 7, mkRat 1 2)]).Chain'
      (fun a b => a.1.message_index + 6 < b.1.message_index) :=
  C3_deduplication.2.2.2.2 6 [(dMsg 0, mkRat 1 2), (dMsg 7, mkRat 1 2)]
    (by decide)

theorem sessionEstimate_nonneg (s : SessionInfo) :
    0 ≤ sessionEstimate s := by
  rw [sessionEstimate, BYTES_PER_MESSAGE]
  by_cases h : 0 < s.message_count
  · rw [if_pos h]
    exact mul_nonneg (le_of_lt h) (by norm_num)
  · rw [if_neg h]
    norm_num

theorem sessionsCost_nil : sessionsCost [] = 0 := rfl

theorem sessionsCost_cons (s : SessionInfo) (l : List SessionInfo) :
    sessionsCost (s :: l) = sessionEstimate s + sessionsCost l := by
  rw [sessionsCost, sessionsCost, List.map_cons, List.sum_cons]

theorem sessionsCost_nonneg (l : List SessionInfo) :
    0 ≤ sessionsCost l := by
  induction l with
  | nil => rw [sessionsCost_nil]
  | cons s rest ih =>
    rw [sessionsCost_cons]
    have := sessionEstimate_nonneg s
    omega

theorem selectGo_perm (limit : ℤ) :
    ∀ (l : List SessionInfo) (cur : ℤ),
      ((selectGo limit cur l).1 ++ (selectGo limit cur l).2).Perm l := by
  intro l
  induction l with
  | nil => intro cur; rfl
  | cons s rest ih =>
    intro cur
    rw [selectGo]
    by_cases h : cur + sessionEstimate s ≤ limit
    · simp only [if_pos h]
      rw [List.cons_append]
      exact (ih (cur + sessionEstimate s)).cons s
    · simp only [if_neg h]
      exact List.perm_middle.trans ((ih cur).cons s)

theorem selectGo_cost (limit : ℤ) :
    ∀ (l : List SessionInfo) (cur : ℤ), cur ≤ limit →
      cur + sessionsCost (selectGo limit cur l).1 ≤ limit := by
  intro l
  induction l with
  | nil =>
    intro cur h
    rw [selectGo]
    rw [sessionsCost_nil]
    omega
  | cons s rest ih =>
    intro cur h
    rw [selectGo]
    by_cases hfit : cur + sessionEstimate s ≤ limit
    · simp only [if_pos hfit]
      rw [sessionsCost_cons]
      have := ih (cur + sessionEstimate s) hfit
      omega
    · simp only [if_neg hfit]
      exact ih cur h

theorem selectGo_excluded (limit : ℤ) :
    ∀ (l : List SessionInfo) (cur : ℤ) (s : SessionInfo),
      s ∈ (selectGo limit cur l).2 →
      limit < cur + sessionsCost (selectGo limit cur l).1 +
        sessionEstimate s := by
  intro l
  induction l with
  | nil =>
    intro cur s hs
    rw [selectGo] at hs
    exact absurd hs (List.not_mem_nil s)
  | cons x rest ih =>
    intro cur s hs
    rw [selectGo] at hs ⊢
    by_cases hfit : cur + sessionEstimate x ≤ limit
    · simp only [if_pos hfit] at hs ⊢
      have := ih (cur + sessionEstimate x) s hs
      rw [sessionsCost_cons]
      omega
    · simp only [if_neg hfit] at hs ⊢
      rw [List.mem_cons] at hs
      rcases hs with hs | hs
      · subst hs
        have := sessionsCost_nonneg (selectGo limit cur rest).1
        omega
      · exact ih cur s hs

theorem selectGo_sublists (limit : ℤ) :
    ∀ (l : List SessionInfo) (cur : ℤ),
      (selectGo limit cur l).1.Sublist l ∧
        (selectGo limit cur l).2.Sublist l := by
  intro l
  induction l with
  | nil => intro cur; exact ⟨List.Sublist.refl _, List.Sublist.refl _⟩
  | cons s rest ih =>
    intro cur
    rw [selectGo]
    by_cases h : cur + sessionEstimate s ≤ limit
    · simp only [if_pos h]
      exact ⟨(ih (cur + sessionEstimate s)).1.cons₂ s,
        (ih (cur + sessionEstimate s)).2.cons s⟩
    · simp only [if_neg h]
      exact ⟨(ih cur).1.cons s, (ih cur).2.cons₂ s⟩

/-- C4 counterexample: sessions `[sessBig (new, 26000 bytes),
sessSmall (old, 2600 bytes)]` with `limitBytes = 2600` select exactly
`[sessSmall]`, which is *not* a leading slice of the newest-first
order `[sessBig, sessSmall]` — the selection is not a newest-first
prefix, because the greedy loop continues past the excluded large
session. -/
theorem C4_memory_budget_counterexample :
    select_sessions_within_limit [sessBig, sessSmall] 2600 =
      ([sessSmall], [sessBig]) ∧
    sortSessionsDesc [sessBig, sessSmall] = [sessBig, sessSmall] ∧
    isLeadingSlice
      (select_sessions_within_limit [sessBig, sessSmall] 2600).1
      (sortSessionsDesc [sessBig, sessSmall]) = false := by
  decide

/-- C4 (amended): for `limitBytes > 0` the selected sessions' total
estimate stays within the limit; selected and excluded together are a
permutation of the input; every excluded session would overflow the
final selection (so exclusion is never spurious and the greedy loop's
continuing past an excluded session is sound); both lists preserve the
newest-first order (they are sublists of the newest-first sorted
input); sessions without a positive message count are estimated at 10
messages; and `limitBytes ≤ 0` selects everything.  The selection is
the greedy newest-first scan, not necessarily a contiguous prefix (see
the counterexample). -/
theorem C4_memory_budget :
    (∀ (sessions : List SessionInfo) (limit : ℤ), 0 < limit →
      sessionsCost (select_sessions_within_limit sessions limit).1 ≤
        limit) ∧
    (∀ (sessions : List SessionInfo) (limit : ℤ),
      ((select_sessions_within_limit sessions limit).1 ++
        (select_sessions_within_limit sessions limit).2).Perm sessions) ∧
    (∀ (sessions : List SessionInfo) (limit : ℤ) (s : SessionInfo),
      0 < limit →
      s ∈ (select_sessions_within_limit sessions limit).2 →
      limit <
        sessionsCost (select_sessions_within_limit sessions limit).1 +
          sessionEstimate s) ∧
    (∀ (sessions : List SessionInfo) (limit : ℤ), 0 < limit →
      (select_sessions_within_limit sessions limit).1.Sublist
          (sortSessionsDesc sessions) ∧
        (select_sessions_within_limit sessions limit).2.Sublist
          (sortSessionsDesc sessions)) ∧
    (∀ (sessions : List SessionInfo) (limit : ℤ), limit ≤ 0 →
      select_sessions_within_limit sessions limit = (sessions, [])) ∧
    (∀ s : SessionInfo, s.message_count ≤ 0 →
      sessionEstimate s = 10 * BYTES_PER_MESSAGE) := by
  refine ⟨?_, ?_, ?_, ?_, ?_, ?_⟩
  · intro sessions limit h
    rw [select_sessions_within_limit, if_neg (not_le.mpr h)]
    have := selectGo_cost limit (sortSessionsDesc sessions) 0 (le_of_lt h)
    omega
  · intro sessions limit
    rw [select_sessions_within_limit]
    by_cases h : limit ≤ 0
    · rw [if_pos h]
      rw [List.append_nil]
    · rw [if_neg h]
      exact (selectGo_perm limit (sortSessionsDesc sessions) 0).trans
        (List.perm_insertionSort _ sessions)
  · intro sessions limit s h hs
    rw [select_sessions_within_limit, if_neg (not_le.mpr h)] at hs ⊢
    have := selectGo_excluded limit (sortSessionsDesc sessions) 0 s hs
    omega
  · intro sessions limit h
    rw [select_sessions_within_limit, if_neg (not_le.mpr h)]
    exact selectGo_sublists limit (sortSessionsDesc sessions) 0
  · intro sessions limit h
    rw [select_sessions_within_limit, if_pos h]
  · intro s h
    rw [sessionEstimate, if_neg (not_lt.mpr h)]

/-- Witness for C4: the amended properties at the concrete
big/small-session corpus with a 2600-byte limit. -/
theorem C4_memory_budget_witness :
    sessionsCost
        (select_sessions_within_limit [sessBig, sessSmall] 2600).1 ≤
      2600 :=
  C4_memory_budget.1 [sessBig, sessSmall] 2600 (by norm_num)

/-- C5 counterexample: a full first page with no further results
(`total = 5`, `offset = 0`, `count = 5`) produces
`"Showing all 5 matches."`, not the claimed
`"Showing 1-5 of 5."`. -/
theorem C5_hint_counterexample :
    generateHint 5 0 5 10 false = "Showing all 5 matches." ∧
    generateHint 5 0 5 10 false ≠ "Showing 1-5 of 5." := by
  decide

/-- C5 (amended): the hint format has four cases — zero total;
`"Showing {start}-{end} of {total}. Use offset: {offset+maxResults}
for more."` when more remain; `"Showing all {total} matches."` when
the page starts at 1 and nothing more remains; `"Showing
{start}-{end} of {total} (final page)."` otherwise — with
`start = offset + 1` and `end = offset + count`; and the pipeline
pagination example `total = 25, offset = 10, maxResults = 10` returns
10 items with `hasMore = true` and the hint
`"Showing 11-20 of 25. Use offset: 20 for more."`. -/
theorem C5_hint_format :
    (∀ (o c m : ℕ) (b : Bool),
      generateHint 0 o c m b =
        "No matches found. Try different search terms.") ∧
    (∀ t o c m : ℕ, t ≠ 0 →
      generateHint t o c m true =
        s!"Showing {o + 1}-{o + c} of {t}. Use offset: {o + m} for more.") ∧
    (∀ t c m : ℕ, t ≠ 0 →
      generateHint t 0 c m false = s!"Showing all {t} matches.") ∧
    (∀ t o c m : ℕ, t ≠ 0 → o ≠ 0 →
      generateHint t o c m false =
        s!"Showing {o + 1}-{o + c} of {t} (final page).") ∧
    (search_conversations (fun _ => none)
        (fun _ _ _ _ _ _ => pageResults) "q" none none none none
        (some 3) (some (mkRat 1 2)) (some 10) 10 =
      Except.ok
        ⟨(pageResults.drop 10).take 10, "q", 25, 10, true,
          "Showing 11-20 of 25. Use offset: 20 for more."⟩) := by
  refine ⟨?_, ?_, ?_, ?_, ?_⟩
  · intro o c m b
    rw [generateHint, if_pos rfl]
  · intro t o c m ht
    rw [generateHint, if_neg ht]
    rfl
  · intro t c m ht
    rw [generateHint, if_neg ht]
    rfl
  · intro t o c m ht ho
    have h1 : ¬ (o + 1 = 1) := by omega
    rw [generateHint, if_neg ht]
    simp only [if_neg h1]
    rfl
  · rfl

/-- Witness for C5: the four formatting cases evaluated at concrete
inputs. -/
theorem C5_hint_format_witness :
    generateHint 25 10 10 10 true =
      "Showing 11-20 of 25. Use offset: 20 for more." := by
  have h := C5_hint_format.2.1 25 10 10 10 (by norm_num)
  rw [h]
  rfl

theorem keysInOrderAux_mem {α : Type} [DecidableEq α] :
    ∀ (l seen : List α) (t : α),
      t ∈ keysInOrderAux l seen ↔ t ∈ l ∧ t ∉ seen := by
  intro l
  induction l with
  | nil =>
    intro seen t
    rw [keysInOrderAux]
    simp
  | cons k rest ih =>
    intro seen t
    rw [keysInOrderAux]
    by_cases hk : k ∈ seen
    · rw [if_pos hk, ih]
      constructor
      · rintro ⟨h1, h2⟩
        exact ⟨List.mem_cons_of_mem _ h1, h2⟩
      · rintro ⟨h1, h2⟩
        rcases List.mem_cons.mp h1 with h | h
        · subst h
          exact absurd hk h2
        · exact ⟨h, h2⟩
    · rw [if_neg hk, List.mem_cons, ih]
      constructor
      · rintro (h | ⟨h1, h2⟩)
        · subst h
          exact ⟨List.mem_cons_self _ _, hk⟩
        · exact ⟨List.mem_cons_of_mem _ h1,
            fun hh => h2 (List.mem_cons_of_mem _ hh)⟩
      · rintro ⟨h1, h2⟩
        rcases List.mem_cons.mp h1 with h | h
        · exact Or.inl h
        · by_cases he : t = k
          · exact Or.inl he
          · refine Or.inr ⟨h, ?_⟩
            intro hh
            rcases List.mem_cons.mp hh with h3 | h3
            · exact he h3
            · exact h2 h3

theorem keysInOrderAux_nodup {α : Type} [DecidableEq α] :
    ∀ (l seen : List α), (keysInOrderAux l seen).Nodup := by
  intro l
  induction l with
  | nil =>
    intro seen
    rw [keysInOrderAux]
    exact List.nodup_nil
  | cons k rest ih =>
    intro seen
    rw [keysInOrderAux]
    by_cases hk : k ∈ seen
    · rw [if_pos hk]
      exact ih seen
    · rw [if_neg hk]
      rw [List.nodup_cons]
      refine ⟨?_, ih (k :: seen)⟩
      intro hmem
      rw [keysInOrderAux_mem] at hmem
      exact hmem.2 (List.mem_cons_self _ _)

/-- C6 counterexample: a build with 101 uncached messages whose first
and last share one text (`0`) sends that text to the embedding model in
two separate batch calls (batch size 100), refuting "two messages with
identical text never trigger two embedding-model calls for that
text". -/
theorem C6_cache_counterexample :
    (List.range 100 ++ [0]).count 0 = 2 ∧
    model_calls_containing 0 (List.range 100 ++ [0]) ([] : List ℕ) = 2 := by
  decide

/-- C6 (amended): a message whose text's hash is already in the
persisted cache is never re-embedded; after a build the merged
persisted cache has a key for every message text (in particular every
distinct text embedded); and the newly written cache entries are keyed
by content hash, so identical texts share exactly one new entry.
However, duplicate *uncached* identical texts within one build are
each sent to the model (see the counterexample). -/
theorem C6_cache_correctness :
    (∀ (α : Type) [DecidableEq α] (msgs cacheKeys : List α) (t : α),
      t ∈ cacheKeys → t ∉ texts_to_embed msgs cacheKeys) ∧
    (∀ (α : Type) [DecidableEq α] (msgs cacheKeys : List α) (t : α),
      t ∈ msgs → t ∈ merged_cache_keys msgs cacheKeys) ∧
    (∀ (α : Type) [DecidableEq α] (msgs cacheKeys : List α),
      (new_cache_keys msgs cacheKeys).Nodup) := by
  refine ⟨?_, ?_, ?_⟩
  · intro α _ msgs cacheKeys t h hmem
    rw [texts_to_embed, List.mem_filter] at hmem
    have h2 := hmem.2
    rw [decide_eq_true_eq] at h2
    exact h2 h
  · intro α _ msgs cacheKeys t h
    rw [merged_cache_keys, List.mem_append]
    by_cases hc : t ∈ cacheKeys
    · exact Or.inl hc
    · refine Or.inr ?_
      rw [new_cache_keys, keysInOrder, keysInOrderAux_mem]
      refine ⟨?_, List.not_mem_nil t⟩
      rw [texts_to_embed, List.mem_filter]
      exact ⟨h, by rw [decide_eq_true_eq]; exact hc⟩
  · intro α _ msgs cacheKeys
    rw [new_cache_keys, keysInOrder]
    exact keysInOrderAux_nodup _ _

/-- Witness for C6: a concretely cached text is skipped by the
embedding loop. -/
theorem C6_cache_correctness_witness :
    (7 : ℕ) ∉ texts_to_embed [7, 8] [7] :=
  C6_cache_correctness.1 ℕ [7, 8] [7] 7 (by decide)

/-- `ensure_index` is a no-op on a state that already has embeddings
and whose recorded fingerprint matches the current one. -/
theorem ensure_index_noop (current : String) (corpus : List (List ℚ))
    (st : EnsureState) (h1 : st.embeddings.isSome = true)
    (h2 : st.sessions_fingerprint = current) :
    ensure_index current corpus st = (st, false) := by
  have hnone : st.embeddings.isNone = false := by
    cases hx : st.embeddings with
    | none => rw [hx] at h1; exact absurd h1 (by rw [Option.isSome_none]; exact Bool.false_ne_true)
    | some v => rfl
  have hnr : needs_rebuild current st = false := by
    rw [needs_rebuild, h2, bne_self_eq_false]
  rw [ensure_index, hnone, hnr]
  rfl

/-- C8: idempotence of `ensure_index` under an unchanged fingerprint.
The call after any `ensure_index` call is a no-op (at most one build
happens across the two calls), and on an already-built state with a
matching fingerprint `ensure_index` performs no build at all — so a
query (which calls `ensure_index` before searching) never forces a
rebuild while the fingerprint is unchanged. -/
theorem C8_ensure_idempotent :
    (∀ (current : String) (corpus : List (List ℚ)) (st : EnsureState),
      ensure_index current corpus (ensure_index current corpus st).1 =
        ((ensure_index current corpus st).1, false)) ∧
    (∀ (current : String) (corpus : List (List ℚ)) (st : EnsureState),
      st.embeddings.isSome = true →
      st.sessions_fingerprint = current →
      ensure_index current corpus st = (st, false)) := by
  refine ⟨?_, ensure_index_noop⟩
  intro current corpus st
  by_cases h : (st.embeddings.isNone || needs_rebuild current st) = true
  · have hfst : (ensure_index current corpus st).1 =
        build_index current corpus st := by
      rw [ensure_index, if_pos h]
    rw [hfst]
    exact ensure_index_noop current corpus (build_index current corpus st)
      rfl rfl
  · have hfst : (ensure_index current corpus st).1 = st := by
      rw [ensure_index, if_neg h]
    rw [hfst]
    rw [Bool.or_eq_true, not_or] at h
    obtain ⟨h1, h2⟩ := h
    have h1' : st.embeddings.isSome = true := by
      cases hx : st.embeddings with
      | none => exact absurd (by rw [hx]; rfl) h1
      | some v => rfl
    have h2' : st.sessions_fingerprint = current := by
      have := Bool.not_eq_true _ |>.mp h2
      rw [needs_rebuild] at this
      exact (bne_eq_false_iff_eq.mp this).symm
    exact ensure_index_noop current corpus st h1' h2'

/-- Witness for C8: the no-op on a concretely built state. -/
theorem C8_ensure_idempotent_witness :
    ensure_index "f" [] ⟨"f", some []⟩ = (⟨"f", some []⟩, false) :=
  C8_ensure_idempotent.2 "f" [] ⟨"f", some []⟩ rfl rfl

/-- A failing `after` date filter makes `search_conversations` return
the validation error, whatever the index search would have produced. -/
theorem search_conversations_after_error (fromiso : String → Option ℤ)
    (rawSearch : Option String → Option Source → ℚ → ℕ → Option ℤ →
      Option ℤ → List (IndexedMessage × ℚ))
    (query : String) (ws : Option String) (src : Option Source)
    (a : String) (before : Option String) (cs : Option ℤ)
    (θ : Option ℚ) (mr : Option ℕ) (off : ℕ)
    (h : fromiso (replaceZ a) = none) :
    search_conversations fromiso rawSearch query ws src (some a) before
        cs θ mr off =
      Except.error
        s!"Invalid date format: {a}. Use ISO 8601 (e.g., 2025-01-15)" := by
  simp only [search_conversations, parse_date_filter, h]

/-- C9: an unparseable `after` or `before` string yields a validation
error whose message names the expected ISO-8601 format; the error is
produced before any index work (the outcome does not depend on the
index search at all, so index state is untouched); parseable bounds do
not raise; and a trailing `Z` is rewritten to `+00:00` before
parsing. -/
theorem C9_invalid_date_filter :
    (∀ (fromiso : String → Option ℤ)
       (rawSearch : Option String → Option Source → ℚ → ℕ → Option ℤ →
         Option ℤ → List (IndexedMessage × ℚ))
       (query : String) (ws : Option String) (src : Option Source)
       (a : String) (before : Option String) (cs : Option ℤ)
       (θ : Option ℚ) (mr : Option ℕ) (off : ℕ),
       fromiso (replaceZ a) = none →
       search_conversations fromiso rawSearch query ws src (some a)
           before cs θ mr off =
         Except.error
           s!"Invalid date format: {a}. Use ISO 8601 (e.g., 2025-01-15)") ∧
    (∀ (fromiso : String → Option ℤ) rawSearch rawSearch'
       (query : String) (ws : Option String) (src : Option Source)
       (a : String) (before : Option String) (cs : Option ℤ)
       (θ : Option ℚ) (mr : Option ℕ) (off : ℕ),
       fromiso (replaceZ a) = none →
       search_conversations fromiso rawSearch query ws src (some a)
           before cs θ mr off =
         search_conversations fromiso rawSearch' query ws src (some a)
           before cs θ mr off) ∧
    (∀ (fromiso : String → Option ℤ) rawSearch (query : String)
       (ws : Option String) (src : Option Source) (after : Option String)
       (b : String) (cs : Option ℤ) (θ : Option ℚ) (mr : Option ℕ)
       (off : ℕ),
       (∀ a, after = some a → (fromiso (replaceZ a)).isSome = true) →
       fromiso (replaceZ b) = none →
       search_conversations fromiso rawSearch query ws src after (some b)
           cs θ mr off =
         Except.error
           s!"Invalid date format: {b}. Use ISO 8601 (e.g., 2025-01-15)") ∧
    (∀ (fromiso : String → Option ℤ) rawSearch (query : String)
       (ws : Option String) (src : Option Source)
       (after before : Option String) (cs : Option ℤ) (θ : Option ℚ)
       (mr : Option ℕ) (off : ℕ),
       (∀ a, after = some a → (fromiso (replaceZ a)).isSome = true) →
       (∀ b, before = some b → (fromiso (replaceZ b)).isSome = true) →
       (search_conversations fromiso rawSearch query ws src after before
         cs θ mr off).isOk = true) ∧
    (replaceZ "2025-01-15T10:00:00Z" = "2025-01-15T10:00:00+00:00") := by
  refine ⟨?_, ?_, ?_, ?_, by decide⟩
  · intro fromiso rawSearch query ws src a before cs θ mr off h
    exact search_conversations_after_error fromiso rawSearch query ws src
      a before cs θ mr off h
  · intro fromiso rawSearch rawSearch' query ws src a before cs θ mr off h
    rw [search_conversations_after_error fromiso rawSearch query ws src
      a before cs θ mr off h]
    rw [search_conversations_after_error fromiso rawSearch' query ws src
      a before cs θ mr off h]
  · intro fromiso rawSearch query ws src after b cs θ mr off hA hb
    cases after with
    | none =>
      simp only [search_conversations, parse_date_filter, hb]
    | some a =>
      obtain ⟨da, hda⟩ := Option.isSome_iff_exists.mp (hA a rfl)
      simp only [search_conversations, parse_date_filter, hda, hb]
  · intro fromiso rawSearch query ws src after before cs θ mr off hA hB
    cases after with
    | none =>
      cases before with
      | none =>
        simp only [search_conversations, parse_date_filter]
        split <;> rfl
      | some b =>
        obtain ⟨db, hdb⟩ := Option.isSome_iff_exists.mp (hB b rfl)
        simp only [search_conversations, parse_date_filter, hdb]
        split <;> rfl
    | some a =>
      obtain ⟨da, hda⟩ := Option.isSome_iff_exists.mp (hA a rfl)
      cases before with
      | none =>
        simp only [search_conversations, parse_date_filter, hda]
        split <;> rfl
      | some b =>
        obtain ⟨db, hdb⟩ := Option.isSome_iff_exists.mp (hB b rfl)
        simp only [search_conversations, parse_date_filter, hda, hdb]
        split <;> rfl

/-- Witness for C9: a concrete unparseable string produces the exact
validation error message. -/
theorem C9_invalid_date_filter_witness :
    search_conversations (fun _ => none) (fun _ _ _ _ _ _ => [])
        "q" none none (some "garbage") none none none none 0 =
      Except.error
        "Invalid date format: garbage. Use ISO 8601 (e.g., 2025-01-15)" := by
  have h := C9_invalid_date_filter.1 (fun _ => none)
    (fun _ _ _ _ _ _ => []) "q" none none "garbage" none none none none 0
    rfl
  rw [h]
  rfl

/-- C10: at the `search_conversations` interface an explicit `0`
(`0.0`) for `context_size`, `threshold`, or `max_results` is falsy in
the `x or default` resolution and is replaced by the configured
defaults `3`, `0.2`, and `10` — a call passing all three as `0`
behaves exactly like a call passing none of them, a `threshold` of
`0.0` still gets the `0.2` cutoff, and `max_results = 0` does not
produce an empty page (concretely, one raw match yields a one-element
page). -/
theorem C10_zero_arguments_use_defaults :
    (pyOrInt (some 0) default_context_window = default_context_window ∧
      default_context_window = 3) ∧
    (pyOrRat (some 0) default_threshold = default_threshold ∧
      default_threshold = 1 / 5) ∧
    (pyOrNat (some 0) default_max_results = default_max_results ∧
      default_max_results = 10) ∧
    (∀ (fromiso : String → Option ℤ)
       (rawSearch : Option String → Option Source → ℚ → ℕ → Option ℤ →
         Option ℤ → List (IndexedMessage × ℚ))
       (query : String) (ws : Option String) (src : Option Source)
       (after before : Option String) (off : ℕ),
       search_conversations fromiso rawSearch query ws src after before
           (some 0) (some 0) (some 0) off =
         search_conversations fromiso rawSearch query ws src after before
           none none none off) ∧
    (search_conversations (fun _ => none)
        (fun _ _ _ _ _ _ => [(dMsg 0, mkRat 1 2)]) "q" none none none
        none (some 0) (some 0) (some 0) 0 =
      Except.ok
        ⟨[(dMsg 0, mkRat 1 2)], "q", 1, 0, false,
          "Showing all 1 matches."⟩) := by
  refine ⟨⟨rfl, rfl⟩, ⟨rfl, rfl⟩, ⟨rfl, rfl⟩, ?_, rfl⟩
  intro fromiso rawSearch query ws src after before off
  rfl

end KiroTotalRecall
